import Mathlib

/-!
Shallow embedding of the `fast-fibonacci` Rust library (`src/lib.rs`).

The library computes the n-th Fibonacci number modulo m in O(log n) time by
exponentiation-by-squaring of the 2×2 transformation matrix `[[0,1],[1,1]]`.
It has two parallel pipelines:

* a bounded-width one (`fib_with_mod`, `matrix_power_with_mod`,
  `multiply_with_mod`, `small_big_int_to_u64`) over Rust `u64`, which widens
  every multiply-accumulate to `BigUint` before reducing mod m and narrowing
  back, and
* an arbitrary-precision one (`bigfib_with_mod`, `bigfib_matrix_power`,
  `bigfib_multiply`) over `BigUint`.

Modelling conventions:

* `BigUint` is embedded as `Nat` (exact arbitrary-precision arithmetic).
* `u64` values are embedded as `Nat`; wherever the source performs native
  `u64` arithmetic whose result could exceed `2^64 - 1`, the embedding takes
  the result `% 2^64` (Rust release-mode wrapping semantics).
* The recursive matrix exponentiation of the source recurses on the exponent
  and diverges for exponent 0 (it is only ever called with exponent ≥ 2 by
  the entry points).  It is embedded with an explicit fuel parameter; the
  public wrappers pass the exponent itself as fuel, and fuel sufficiency and
  fuel irrelevance for exponent ≥ 1 are proved below.
* `m % 0` panics in Rust.  The entry points reach a modulo operation only
  for n ≥ 2; the n ≤ 1 early returns, which never touch the modulus, are
  embedded exactly.  All theorems about the n ≥ 2 path assume m ≥ 1.
-/

/-- A 2×2 matrix of natural numbers.  Fields `a b c d` are the entries
`[[0,0]]`, `[[0,1]]`, `[[1,0]]`, `[[1,1]]` of the source's `Array2`. -/
structure Mat2 where
  a : Nat
  b : Nat
  c : Nat
  d : Nat
  deriving DecidableEq

/-- The number of values of Rust's `u64`, i.e. `2^64`. -/
def U64 : Nat := 2 ^ 64

/-- All four entries of a matrix are strictly below `m` (i.e. in `[0, m)`). -/
def entriesLt (x : Mat2) (m : Nat) : Prop :=
  x.a < m ∧ x.b < m ∧ x.c < m ∧ x.d < m

instance (x : Mat2) (m : Nat) : Decidable (entriesLt x m) :=
  inferInstanceAs (Decidable (_ ∧ _ ∧ _ ∧ _))

/-- Exact (unreduced) 2×2 matrix product over `Nat`. -/
def matMul (x y : Mat2) : Mat2 :=
  ⟨x.a * y.a + x.b * y.c, x.a * y.b + x.b * y.d,
   x.c * y.a + x.d * y.c, x.c * y.b + x.d * y.d⟩

/-- The 2×2 identity matrix. -/
def matId : Mat2 := ⟨1, 0, 0, 1⟩

/-- Exact 2×2 matrix power over `Nat`. -/
def matPow (x : Mat2) : Nat → Mat2
  | 0 => matId
  | p + 1 => matMul x (matPow x p)

/-- Entrywise reduction of a matrix modulo `m`. -/
def matModM (x : Mat2) (m : Nat) : Mat2 :=
  ⟨x.a % m, x.b % m, x.c % m, x.d % m⟩

/-- The Fibonacci transformation matrix `t = [[0,1],[1,1]]` built by both
entry points (`lib.rs` lines 34-37 and 90-93). -/
def fibT : Mat2 := ⟨0, 1, 1, 1⟩

/-- Little-endian base-10 digits of `n`, with explicit fuel (any
`fuel ≥ n` yields the true digit list; `n = 0` yields `[]`). -/
def digitsLe : Nat → Nat → List Nat
  | 0, _ => []
  | fuel + 1, n => if n = 0 then [] else n % 10 :: digitsLe fuel (n / 10)

/-- Model of `num_bigint::BigUint::to_radix_be(10)`: big-endian base-10
digits, returning `[0]` for zero. -/
def to_radix_be (n : Nat) : List Nat :=
  if n = 0 then [0] else (digitsLe n n).reverse

/-- The digit-accumulation loop of `small_big_int_to_u64` (`lib.rs` lines
184-191): for every digit except the last, add it then multiply by 10; the
last digit is only added.  Every `u64` operation wraps modulo `2^64`.
The source indexes `digits[0 .. len-1]` and `digits[len-1]`, so an empty
digit list would panic; `to_radix_be` never produces one, and the `[]`
branch here is arbitrary. -/
def sbi_loop : Nat → List Nat → Nat
  | result, [] => result
  | result, [d] => (result + d) % U64
  | result, d1 :: d2 :: rest => sbi_loop ((result + d1) % U64 * 10 % U64) (d2 :: rest)

/-- Model of `small_big_int_to_u64` (`lib.rs` lines 183-192): narrow a
`BigUint` to `u64` by re-accumulating its base-10 big-endian digits with
`u64` arithmetic. -/
def small_big_int_to_u64 (big_int : Nat) : Nat :=
  sbi_loop 0 (to_radix_be big_int)

/-- Model of `bigfib_multiply` (`lib.rs` lines 121-137): 2×2 modular matrix
product over `BigUint`.  Each entry accumulates over k = 0, 1, reducing
modulo `m` after every addition, exactly as the source's k-loop does. -/
def bigfib_multiply (x y : Mat2) (modulo : Nat) : Mat2 :=
  ⟨((0 + x.a * y.a) % modulo + x.b * y.c) % modulo,
   ((0 + x.a * y.b) % modulo + x.b * y.d) % modulo,
   ((0 + x.c * y.a) % modulo + x.d * y.c) % modulo,
   ((0 + x.c * y.b) % modulo + x.d * y.d) % modulo⟩

/-- Model of `multiply_with_mod` (`lib.rs` lines 140-160): 2×2 modular
matrix product over `u64`.  Every multiply-accumulate is widened to
`BigUint` (exact `Nat` arithmetic here), reduced modulo `m`, and the stored
entry is narrowed back to `u64` through `small_big_int_to_u64`; the k = 1
step re-reads the narrowed k = 0 entry. -/
def multiply_with_mod (x y : Mat2) (modulo : Nat) : Mat2 :=
  ⟨small_big_int_to_u64 ((small_big_int_to_u64 ((0 + x.a * y.a) % modulo) + x.b * y.c) % modulo),
   small_big_int_to_u64 ((small_big_int_to_u64 ((0 + x.a * y.b) % modulo) + x.b * y.d) % modulo),
   small_big_int_to_u64 ((small_big_int_to_u64 ((0 + x.c * y.a) % modulo) + x.d * y.c) % modulo),
   small_big_int_to_u64 ((small_big_int_to_u64 ((0 + x.c * y.b) % modulo) + x.d * y.d) % modulo)⟩

/-- Model of `bigfib_matrix_power` (`lib.rs` lines 103-118) with explicit
fuel: if the exponent is 1 return the matrix; if it is odd, peel one factor
and recurse on the even remainder; otherwise square the half power.  The
source recursion consumes no fuel; out of fuel corresponds to the
divergence the source exhibits at exponent 0. -/
def bigfib_matrix_power_fuel : Nat → Mat2 → Nat → Nat → Option Mat2
  | 0, _, _, _ => none
  | fuel + 1, mat, pow, modulo =>
    if pow = 1 then some mat
    else if pow % 2 = 1 then
      Option.map (fun r => bigfib_multiply mat r modulo)
        (bigfib_matrix_power_fuel fuel mat (pow - 1) modulo)
    else
      Option.map (fun x => bigfib_multiply x x modulo)
        (bigfib_matrix_power_fuel fuel mat (pow / 2) modulo)

/-- `bigfib_matrix_power` with the canonical fuel `pow` (sufficient for
every exponent ≥ 1, as proved below). -/
def bigfib_matrix_power (mat : Mat2) (pow modulo : Nat) : Option Mat2 :=
  bigfib_matrix_power_fuel pow mat pow modulo

/-- Model of `matrix_power_with_mod` (`lib.rs` lines 163-180) with explicit
fuel; identical recursion structure to `bigfib_matrix_power_fuel` but using
the bounded-width `multiply_with_mod`. -/
def matrix_power_with_mod_fuel : Nat → Mat2 → Nat → Nat → Option Mat2
  | 0, _, _, _ => none
  | fuel + 1, mat, pow, modulo =>
    if pow = 1 then some mat
    else if pow % 2 = 1 then
      Option.map (fun r => multiply_with_mod mat r modulo)
        (matrix_power_with_mod_fuel fuel mat (pow - 1) modulo)
    else
      Option.map (fun x => multiply_with_mod x x modulo)
        (matrix_power_with_mod_fuel fuel mat (pow / 2) modulo)

/-- `matrix_power_with_mod` with the canonical fuel `pow`. -/
def matrix_power_with_mod (mat : Mat2) (pow modulo : Nat) : Option Mat2 :=
  matrix_power_with_mod_fuel pow mat pow modulo

/-- Model of the public entry point `fib_with_mod` (`lib.rs` lines 25-44):
base cases n = 0 → 0 and n = 1 → 1, otherwise project `t^n mod m` onto the
state vector `f = [0, 1]` with the source's accumulation loop
`answer = (answer + power_t[[0, i]] * f[i]) % modulo`, whose native `u64`
multiplications and additions wrap modulo `2^64`.  `none` models the
divergence of the exponentiation when out of fuel (never reached: n ≥ 2 is
passed fuel n). -/
def fib_with_mod (n modulo : Nat) : Option Nat :=
  if n = 0 then some 0
  else if n = 1 then some 1
  else
    Option.map
      (fun power_t =>
        ((((0 + power_t.a * 0 % U64) % U64) % modulo + power_t.b * 1 % U64) % U64) % modulo)
      (matrix_power_with_mod fibT n modulo)

/-- Model of the public entry point `bigfib_with_mod` (`lib.rs` lines
82-100): if n = 0 or n = 1 return n itself, otherwise project
`t^n mod m` onto `f = [0, 1]` with exact arbitrary-precision arithmetic. -/
def bigfib_with_mod (n modulo : Nat) : Option Nat :=
  if n = 0 ∨ n = 1 then some n
  else
    Option.map
      (fun power_t => ((0 + power_t.a * 0) % modulo + power_t.b * 1) % modulo)
      (bigfib_matrix_power fibT n modulo)

/-- The value `bigfib_matrix_power` computes for exponent ≥ 1: the matrix
itself at exponent 1, otherwise the exact power reduced entrywise. -/
def bigPowerVal (t : Mat2) (p m : Nat) : Mat2 :=
  if p = 1 then t else matModM (matPow t p) m

/-- Big-endian digit evaluation: fold digits onto an accumulator by
multiply-by-10-and-add. -/
def beVal (r : Nat) (ds : List Nat) : Nat :=
  ds.foldl (fun acc d => acc * 10 + d) r

example : fib_with_mod 0 10 = some 0 := by decide
example : fib_with_mod 1 10 = some 1 := by decide
example : fib_with_mod 2 10 = some 1 := by decide
example : fib_with_mod 3 10 = some 2 := by decide
example : fib_with_mod 5 10 = some 5 := by decide
example : bigfib_with_mod 10 100 = some 55 := by decide
example : small_big_int_to_u64 12345 = 12345 := by decide

/-! ### Digit lemmas: `small_big_int_to_u64` is exact below `2^64` -/

theorem digitsLe_eq : ∀ fuel n, n ≤ fuel → digitsLe fuel n = Nat.digits 10 n := by
  intro fuel
  induction fuel with
  | zero =>
    intro n hn
    have h0 : n = 0 := Nat.le_zero.mp hn
    subst h0
    simp [digitsLe]
  | succ f ih =>
    intro n hn
    by_cases h0 : n = 0
    · subst h0; simp [digitsLe]
    · have hpos : 0 < n := Nat.pos_of_ne_zero h0
      have hdiv : n / 10 < n := Nat.div_lt_self hpos (by norm_num)
      rw [digitsLe, if_neg h0, ih (n / 10) (by omega),
        Nat.digits_def' (by norm_num : (1:Nat) < 10) hpos]

theorem beVal_nil (r : Nat) : beVal r [] = r := rfl

theorem beVal_cons (r d : Nat) (ds : List Nat) :
    beVal r (d :: ds) = beVal (r * 10 + d) ds := rfl

theorem beVal_append (r : Nat) (l1 l2 : List Nat) :
    beVal r (l1 ++ l2) = beVal (beVal r l1) l2 :=
  List.foldl_append _ _ _ _

theorem beVal_shift : ∀ (ds : List Nat) (r : Nat),
    beVal r ds = r * 10 ^ ds.length + beVal 0 ds := by
  intro ds
  induction ds with
  | nil => intro r; simp [beVal_nil]
  | cons d ds ih =>
    intro r
    rw [beVal_cons, beVal_cons, ih (r * 10 + d), ih (0 * 10 + d)]
    simp [List.length_cons]
    ring

theorem beVal_reverse : ∀ L : List Nat, beVal 0 L.reverse = Nat.ofDigits 10 L := by
  intro L
  induction L with
  | nil => simp [beVal_nil, Nat.ofDigits]
  | cons d ds ih =>
    rw [List.reverse_cons, beVal_append, ih]
    show (Nat.ofDigits 10 ds) * 10 + d = _
    rw [Nat.ofDigits_cons]
    ring

theorem sbi_loop_eq : ∀ (ds : List Nat) (r : Nat), ds ≠ [] →
    beVal 0 ds + r * 10 ^ (ds.length - 1) < U64 →
    sbi_loop r ds = beVal 0 ds + r * 10 ^ (ds.length - 1) := by
  intro ds
  induction ds with
  | nil => intro r h; exact absurd rfl h
  | cons d1 tail ih =>
    intro r _ hbound
    have hsplit : beVal 0 (d1 :: tail) = beVal 0 tail + d1 * 10 ^ tail.length := by
      rw [beVal_cons, beVal_shift tail (0 * 10 + d1)]
      ring
    cases tail with
    | nil =>
      show (r + d1) % U64 = _
      simp only [hsplit] at hbound ⊢
      simp only [beVal_nil, List.length_cons, List.length_nil, pow_zero, pow_zero] at hbound ⊢
      rw [Nat.mod_eq_of_lt (by omega)]
      omega
    | cons d2 rest =>
      have klen : (d1 :: d2 :: rest).length - 1 = (d2 :: rest).length := rfl
      set k := (d2 :: rest).length with hk
      have hkpos : 1 ≤ k := by simp [hk]
      have hk1 : k - 1 + 1 = k := by omega
      have hpow : 10 ^ k = 10 ^ (k - 1) * 10 := by
        conv_lhs => rw [← hk1]
        rw [pow_succ]
      rw [klen] at hbound
      rw [hsplit] at hbound
      -- the wrapped accumulator updates do not actually wrap
      have hdist : (r + d1) * 10 ^ k = r * 10 ^ k + d1 * 10 ^ k := Nat.add_mul r d1 _
      have hle1 : r + d1 ≤ (r + d1) * 10 ^ k :=
        Nat.le_mul_of_pos_right _ (Nat.pos_pow_of_pos _ (by norm_num))
      have hP10 : (10:Nat) ≤ 10 ^ k := by
        calc (10:Nat) = 10 ^ 1 := (pow_one 10).symm
        _ ≤ 10 ^ k := Nat.pow_le_pow_right (by norm_num) hkpos
      have hle2 : (r + d1) * 10 ≤ (r + d1) * 10 ^ k := Nat.mul_le_mul_left (r + d1) hP10
      have hwrap1 : (r + d1) % U64 = r + d1 := Nat.mod_eq_of_lt (by omega)
      have hwrap2 : (r + d1) * 10 % U64 = (r + d1) * 10 := Nat.mod_eq_of_lt (by omega)
      have h3 : (r + d1) * 10 * 10 ^ (k - 1) = r * 10 ^ k + d1 * 10 ^ k := by
        rw [hpow]
        ring
      show sbi_loop ((r + d1) % U64 * 10 % U64) (d2 :: rest) = _
      rw [hwrap1, hwrap2, klen, hsplit]
      rw [ih ((r + d1) * 10) (by simp) (by omega)]
      omega

theorem small_big_int_to_u64_eq (v : Nat) (hv : v < U64) :
    small_big_int_to_u64 v = v := by
  by_cases h0 : v = 0
  · subst h0; decide
  · have hd : digitsLe v v = Nat.digits 10 v := digitsLe_eq v v le_rfl
    have hne : Nat.digits 10 v ≠ [] := Nat.digits_ne_nil_iff_ne_zero.mpr h0
    have hval : beVal 0 (Nat.digits 10 v).reverse = v := by
      rw [beVal_reverse, Nat.ofDigits_digits]
    unfold small_big_int_to_u64 to_radix_be
    rw [if_neg h0, hd]
    rw [sbi_loop_eq _ 0 (by simpa using hne) (by simp [hval]; omega)]
    simp [hval]

/-! ### Matrix algebra over `Nat` -/

theorem Mat2.ext4 (x y : Mat2) (ha : x.a = y.a) (hb : x.b = y.b)
    (hc : x.c = y.c) (hd : x.d = y.d) : x = y := by
  cases x
  cases y
  simp_all

theorem matMul_assoc (x y z : Mat2) :
    matMul (matMul x y) z = matMul x (matMul y z) := by
  apply Mat2.ext4 <;> simp [matMul] <;> ring

theorem matMul_id_right (x : Mat2) : matMul x matId = x := by
  apply Mat2.ext4 <;> simp [matMul, matId]

theorem matMul_id_left (x : Mat2) : matMul matId x = x := by
  apply Mat2.ext4 <;> simp [matMul, matId]

theorem matPow_one (x : Mat2) : matPow x 1 = x := by
  show matMul x matId = x
  exact matMul_id_right x

theorem matPow_succ (x : Mat2) (p : Nat) : matPow x (p + 1) = matMul x (matPow x p) := rfl

theorem matPow_add (x : Mat2) (p q : Nat) :
    matPow x (p + q) = matMul (matPow x p) (matPow x q) := by
  induction p with
  | zero => simp [matPow, matMul_id_left]
  | succ p ih =>
    have h : p + 1 + q = (p + q) + 1 := by omega
    rw [h, matPow_succ, ih, matPow_succ, matMul_assoc]

theorem matModM_idem (x : Mat2) (m : Nat) :
    matModM (matModM x m) m = matModM x m := by
  apply Mat2.ext4 <;> exact Nat.mod_mod_of_dvd _ dvd_rfl

theorem matModM_of_entriesLt (x : Mat2) (m : Nat) (h : entriesLt x m) :
    matModM x m = x := by
  obtain ⟨h1, h2, h3, h4⟩ := h
  apply Mat2.ext4 <;> exact Nat.mod_eq_of_lt (by assumption)

theorem entriesLt_matModM (x : Mat2) (m : Nat) (hm : 1 ≤ m) :
    entriesLt (matModM x m) m :=
  ⟨Nat.mod_lt _ hm, Nat.mod_lt _ hm, Nat.mod_lt _ hm, Nat.mod_lt _ hm⟩

/-! ### The two matrix multiplies -/

theorem bigfib_multiply_eq (x y : Mat2) (m : Nat) :
    bigfib_multiply x y m = matModM (matMul x y) m := by
  apply Mat2.ext4 <;> simp [bigfib_multiply, matModM, matMul, Nat.mod_add_mod]

theorem matModM_matMul_congr (x x' y y' : Mat2) (m : Nat)
    (hx : matModM x m = matModM x' m) (hy : matModM y m = matModM y' m) :
    matModM (matMul x y) m = matModM (matMul x' y') m := by
  have key : ∀ u v : Mat2, matModM (matMul u v) m = matModM (matMul (matModM u m) (matModM v m)) m := by
    intro u v
    apply Mat2.ext4 <;>
      exact (Nat.ModEq.add (((Nat.mod_modEq _ m).mul (Nat.mod_modEq _ m)).symm)
        (((Nat.mod_modEq _ m).mul (Nat.mod_modEq _ m)).symm) : Nat.ModEq m _ _)
  rw [key x y, key x' y', hx, hy]

theorem multiply_with_mod_eq (x y : Mat2) (m : Nat) (hm : 1 ≤ m) (hU : m < U64) :
    multiply_with_mod x y m = bigfib_multiply x y m := by
  have key : ∀ v : Nat, small_big_int_to_u64 (v % m) = v % m := fun v =>
    small_big_int_to_u64_eq _ (lt_trans (Nat.mod_lt v hm) hU)
  apply Mat2.ext4 <;> simp [multiply_with_mod, bigfib_multiply, key]

/-! ### The matrix power recursion -/

theorem bigPowerVal_odd (t : Mat2) (p m : Nat) (hodd : p % 2 = 1) (h1 : p ≠ 1) :
    bigfib_multiply t (bigPowerVal t (p - 1) m) m = bigPowerVal t p m := by
  have hp3 : 3 ≤ p := by omega
  have hp1 : p - 1 ≠ 1 := by omega
  have hsucc : p - 1 + 1 = p := by omega
  rw [bigPowerVal, if_neg hp1, bigPowerVal, if_neg h1, bigfib_multiply_eq]
  rw [matModM_matMul_congr t t (matModM (matPow t (p - 1)) m) (matPow t (p - 1)) m rfl
    (matModM_idem _ _)]
  rw [← matPow_succ, hsucc]

theorem bigPowerVal_even (t : Mat2) (p m : Nat) (heven : p % 2 = 0) (hp : 1 ≤ p) :
    bigfib_multiply (bigPowerVal t (p / 2) m) (bigPowerVal t (p / 2) m) m
      = bigPowerVal t p m := by
  have hp2 : 2 ≤ p := by omega
  have hhalf : p / 2 + p / 2 = p := by omega
  have hp1 : p ≠ 1 := by omega
  have hcong : matModM (bigPowerVal t (p / 2) m) m = matModM (matPow t (p / 2)) m := by
    rw [bigPowerVal]
    by_cases h : p / 2 = 1
    · rw [if_pos h, h, matPow_one]
    · rw [if_neg h, matModM_idem]
  rw [bigfib_multiply_eq]
  rw [matModM_matMul_congr _ (matPow t (p / 2)) _ (matPow t (p / 2)) m hcong hcong]
  rw [← matPow_add, hhalf, bigPowerVal, if_neg hp1]

theorem bigfib_matrix_power_fuel_eq : ∀ (fuel : Nat) (t : Mat2) (p m : Nat),
    1 ≤ p → p ≤ fuel →
    bigfib_matrix_power_fuel fuel t p m = some (bigPowerVal t p m) := by
  intro fuel
  induction fuel with
  | zero => intro t p m hp hf; omega
  | succ f ih =>
    intro t p m hp hf
    by_cases h1 : p = 1
    · subst h1
      simp [bigfib_matrix_power_fuel, bigPowerVal]
    · rw [bigfib_matrix_power_fuel, if_neg h1]
      by_cases hodd : p % 2 = 1
      · rw [if_pos hodd, ih t (p - 1) m (by omega) (by omega)]
        simp only [Option.map_some']
        rw [bigPowerVal_odd t p m hodd h1]
      · rw [if_neg hodd, ih t (p / 2) m (by omega) (by omega)]
        simp only [Option.map_some']
        rw [bigPowerVal_even t p m (by omega) hp]

theorem matrix_power_with_mod_fuel_eq_big : ∀ (fuel : Nat) (t : Mat2) (p m : Nat),
    1 ≤ m → m < U64 →
    matrix_power_with_mod_fuel fuel t p m = bigfib_matrix_power_fuel fuel t p m := by
  intro fuel
  induction fuel with
  | zero => intro t p m hm hU; rfl
  | succ f ih =>
    intro t p m hm hU
    rw [matrix_power_with_mod_fuel, bigfib_matrix_power_fuel]
    by_cases h1 : p = 1
    · rw [if_pos h1, if_pos h1]
    · rw [if_neg h1, if_neg h1]
      by_cases hodd : p % 2 = 1
      · rw [if_pos hodd, if_pos hodd, ih t (p - 1) m hm hU]
        cases bigfib_matrix_power_fuel f t (p - 1) m with
        | none => rfl
        | some r => simp [multiply_with_mod_eq _ _ _ hm hU]
      · rw [if_neg hodd, if_neg hodd, ih t (p / 2) m hm hU]
        cases bigfib_matrix_power_fuel f t (p / 2) m with
        | none => rfl
        | some r => simp [multiply_with_mod_eq _ _ _ hm hU]

theorem bigfib_matrix_power_eq (t : Mat2) (p m : Nat) (hp : 1 ≤ p) :
    bigfib_matrix_power t p m = some (bigPowerVal t p m) :=
  bigfib_matrix_power_fuel_eq p t p m hp le_rfl

theorem matrix_power_with_mod_eq (t : Mat2) (p m : Nat) (hp : 1 ≤ p)
    (hm : 1 ≤ m) (hU : m < U64) :
    matrix_power_with_mod t p m = some (bigPowerVal t p m) := by
  rw [matrix_power_with_mod, matrix_power_with_mod_fuel_eq_big p t p m hm hU]
  exact bigfib_matrix_power_fuel_eq p t p m hp le_rfl

theorem matrix_power_with_mod_fuel_succ (f : Nat) (t : Mat2) (p m : Nat) :
    matrix_power_with_mod_fuel (f + 1) t p m =
      if p = 1 then some t
      else if p % 2 = 1 then
        Option.map (fun r => multiply_with_mod t r m)
          (matrix_power_with_mod_fuel f t (p - 1) m)
      else
        Option.map (fun x => multiply_with_mod x x m)
          (matrix_power_with_mod_fuel f t (p / 2) m) :=
  rfl

theorem matrix_power_with_mod_fuel_irrel : ∀ (fuel1 fuel2 : Nat) (t : Mat2) (p m : Nat),
    1 ≤ p → p ≤ fuel1 → p ≤ fuel2 →
    matrix_power_with_mod_fuel fuel1 t p m = matrix_power_with_mod_fuel fuel2 t p m := by
  intro fuel1
  induction fuel1 with
  | zero => intro fuel2 t p m hp h1 h2; omega
  | succ f1 ih =>
    intro fuel2 t p m hp h1 h2
    obtain ⟨f2, rfl⟩ : ∃ f2, fuel2 = f2 + 1 := ⟨fuel2 - 1, by omega⟩
    rw [matrix_power_with_mod_fuel_succ, matrix_power_with_mod_fuel_succ]
    by_cases hone : p = 1
    · rw [if_pos hone, if_pos hone]
    · rw [if_neg hone, if_neg hone]
      by_cases hodd : p % 2 = 1
      · rw [if_pos hodd, if_pos hodd, ih f2 t (p - 1) m (by omega) (by omega) (by omega)]
      · rw [if_neg hodd, if_neg hodd, ih f2 t (p / 2) m (by omega) (by omega) (by omega)]

theorem matrix_power_with_mod_fuel_some : ∀ (fuel : Nat) (t : Mat2) (p m : Nat),
    1 ≤ p → p ≤ fuel → ∃ r, matrix_power_with_mod_fuel fuel t p m = some r := by
  intro fuel
  induction fuel with
  | zero => intro t p m hp hf; omega
  | succ f ih =>
    intro t p m hp hf
    rw [matrix_power_with_mod_fuel_succ]
    by_cases hone : p = 1
    · rw [if_pos hone]
      exact ⟨t, rfl⟩
    · rw [if_neg hone]
      by_cases hodd : p % 2 = 1
      · rw [if_pos hodd]
        obtain ⟨r0, hr0⟩ := ih t (p - 1) m (by omega) (by omega)
        rw [hr0]
        exact ⟨multiply_with_mod t r0 m, rfl⟩
      · rw [if_neg hodd]
        obtain ⟨r0, hr0⟩ := ih t (p / 2) m (by omega) (by omega)
        rw [hr0]
        exact ⟨multiply_with_mod r0 r0 m, rfl⟩

/-! ### Powers of the transformation matrix and Fibonacci numbers -/

theorem matPow_fibT (k : Nat) :
    matPow fibT (k + 1) =
      ⟨Nat.fib k, Nat.fib (k + 1), Nat.fib (k + 1), Nat.fib (k + 2)⟩ := by
  induction k with
  | zero =>
    rw [matPow_one]
    apply Mat2.ext4 <;> simp [fibT]
  | succ k ih =>
    rw [matPow_succ, ih]
    apply Mat2.ext4
    · show 0 * Nat.fib k + 1 * Nat.fib (k + 1) = Nat.fib (k + 1)
      ring
    · show 0 * Nat.fib (k + 1) + 1 * Nat.fib (k + 2) = Nat.fib (k + 2)
      ring
    · show 1 * Nat.fib k + 1 * Nat.fib (k + 1) = Nat.fib (k + 2)
      have h2 : Nat.fib (k + 2) = Nat.fib k + Nat.fib (k + 1) := Nat.fib_add_two
      omega
    · show 1 * Nat.fib (k + 1) + 1 * Nat.fib (k + 2) = Nat.fib (k + 3)
      have h3 : Nat.fib (k + 3) = Nat.fib (k + 1) + Nat.fib (k + 2) := Nat.fib_add_two
      omega

/-! ### Entry-point correctness -/

theorem bigfib_with_mod_correct (n m : Nat) (hm : 1 ≤ m) (h1 : n ≠ 1 ∨ 2 ≤ m) :
    bigfib_with_mod n m = some (Nat.fib n % m) := by
  by_cases h0 : n = 0
  · subst h0
    simp [bigfib_with_mod]
  · by_cases hone : n = 1
    · subst hone
      have hm2 : 2 ≤ m := h1.resolve_left (by simp)
      rw [bigfib_with_mod, if_pos (Or.inr rfl)]
      rw [Nat.fib_one, Nat.mod_eq_of_lt (by omega)]
    · have hn2 : 2 ≤ n := by omega
      rw [bigfib_with_mod, if_neg (by omega)]
      rw [bigfib_matrix_power_eq fibT n m (by omega)]
      rw [bigPowerVal, if_neg hone]
      have hpow := matPow_fibT (n - 1)
      rw [Nat.sub_add_cancel (by omega)] at hpow
      rw [hpow]
      simp only [Option.map_some']
      congr 1
      simp only [matModM]
      simp only [Nat.mul_zero, Nat.add_zero, Nat.zero_mod, Nat.mul_one, Nat.zero_add]
      exact Nat.mod_mod_of_dvd _ dvd_rfl

theorem fib_with_mod_correct (n m : Nat) (hm : 1 ≤ m) (hU : m < U64)
    (h1 : n ≠ 1 ∨ 2 ≤ m) :
    fib_with_mod n m = some (Nat.fib n % m) := by
  by_cases h0 : n = 0
  · subst h0
    simp [fib_with_mod]
  · by_cases hone : n = 1
    · subst hone
      have hm2 : 2 ≤ m := h1.resolve_left (by simp)
      rw [fib_with_mod, if_neg (by omega), if_pos rfl]
      rw [Nat.fib_one, Nat.mod_eq_of_lt (by omega)]
    · have hn2 : 2 ≤ n := by omega
      rw [fib_with_mod, if_neg (by omega), if_neg hone]
      rw [matrix_power_with_mod_eq fibT n m (by omega) hm hU]
      rw [bigPowerVal, if_neg hone]
      have hpow := matPow_fibT (n - 1)
      rw [Nat.sub_add_cancel (by omega)] at hpow
      rw [hpow]
      simp only [Option.map_some']
      congr 1
      simp only [matModM]
      have hfib : Nat.fib n % m % U64 = Nat.fib n % m :=
        Nat.mod_eq_of_lt (lt_trans (Nat.mod_lt _ hm) hU)
      simp only [Nat.mul_zero, Nat.zero_mod, Nat.add_zero, Nat.mul_one, hfib, Nat.zero_add]
      exact Nat.mod_mod_of_dvd _ dvd_rfl

/-! ### Residues returned by `fib_with_mod` -/

theorem fib_with_mod_residue (k m : Nat) (hm : 1 ≤ m) (hU : m < U64) :
    ∃ r, fib_with_mod k m = some r ∧ r % m = Nat.fib k % m := by
  by_cases h0 : k = 0
  · subst h0
    exact ⟨0, rfl, by rw [Nat.fib_zero]⟩
  · by_cases h1 : k = 1
    · subst h1
      exact ⟨1, rfl, by rw [Nat.fib_one]⟩
    · exact ⟨Nat.fib k % m, fib_with_mod_correct k m hm hU (Or.inl h1),
        Nat.mod_mod_of_dvd _ dvd_rfl⟩

/-! ### Claims -/

/-- C1 (counterexample): at n = 1, m = 1 both entry points return 1, while
the 1st Fibonacci number modulo 1 is 0; the returned value is not in
`[0, 1)`, so the stated postcondition fails at this input. -/
theorem fib_with_mod_one_one_cex :
    fib_with_mod 1 1 = some 1 ∧ bigfib_with_mod 1 1 = some 1 ∧
    Nat.fib 1 % 1 = 0 ∧ ¬ ((1:Nat) < 1) := by decide

/-- C1 (amended): for every n and every m ≥ 1, except n = 1 with m = 1,
`bigfib_with_mod n m` returns `F(n) mod m`, and so does `fib_with_mod n m`
whenever m fits in a `u64`; the result lies in `[0, m)`.  (At n = 1, m = 1
both entry points return the unreduced base-case value 1.) -/
theorem fib_with_mod_postcondition (n m : Nat) (hm : 1 ≤ m) (hnm : n ≠ 1 ∨ 2 ≤ m) :
    bigfib_with_mod n m = some (Nat.fib n % m) ∧
    (m < U64 → fib_with_mod n m = some (Nat.fib n % m)) ∧
    Nat.fib n % m < m :=
  ⟨bigfib_with_mod_correct n m hm hnm,
   fun hU => fib_with_mod_correct n m hm hU hnm,
   Nat.mod_lt _ hm⟩

/-- Witness for C1's amended theorem at n = 5, m = 10. -/
theorem fib_with_mod_postcondition_witness :
    bigfib_with_mod 5 10 = some (Nat.fib 5 % 10) ∧
    (10 < U64 → fib_with_mod 5 10 = some (Nat.fib 5 % 10)) ∧
    Nat.fib 5 % 10 < 10 :=
  fib_with_mod_postcondition 5 10 (by decide) (Or.inl (by decide))

/-- C2: for matrices with entries in `[0, m)` and 1 ≤ m < 2^64, the
bounded-width matrix multiply returns exactly the entrywise
`(Σ_k x[i][k]·y[k][j]) mod m`, every entry in `[0, m)`: each
multiply-accumulate is performed in exact (widened) arithmetic, reduced
modulo m, and only then narrowed, so no wraparound occurs for any m up to
`2^64 - 1`. -/
theorem multiply_with_mod_spec (x y : Mat2) (m : Nat) (hm : 1 ≤ m) (hU : m < U64)
    (hx : entriesLt x m) (hy : entriesLt y m) :
    multiply_with_mod x y m = matModM (matMul x y) m ∧
    entriesLt (multiply_with_mod x y m) m := by
  rw [multiply_with_mod_eq x y m hm hU, bigfib_multiply_eq]
  exact ⟨rfl, entriesLt_matModM _ _ hm⟩

/-- Witness for C2 at concrete matrices and m = 7. -/
theorem multiply_with_mod_spec_witness :
    multiply_with_mod ⟨1, 2, 3, 4⟩ ⟨5, 6, 0, 2⟩ 7
      = matModM (matMul ⟨1, 2, 3, 4⟩ ⟨5, 6, 0, 2⟩) 7 ∧
    entriesLt (multiply_with_mod ⟨1, 2, 3, 4⟩ ⟨5, 6, 0, 2⟩ 7) 7 :=
  multiply_with_mod_spec ⟨1, 2, 3, 4⟩ ⟨5, 6, 0, 2⟩ 7 (by decide) (by decide)
    (by decide) (by decide)

/-- C3: for every n and m representable in 64 bits with m ≥ 1, the
bounded-width and arbitrary-precision entry points agree. -/
theorem fib_with_mod_agrees_bigfib (n m : Nat) (hn : n < U64) (hm : 1 ≤ m)
    (hmU : m < U64) :
    fib_with_mod n m = bigfib_with_mod n m := by
  by_cases h0 : n = 0
  · subst h0
    rfl
  · by_cases h1 : n = 1
    · subst h1
      rfl
    · rw [fib_with_mod_correct n m hm hmU (Or.inl h1),
        bigfib_with_mod_correct n m hm (Or.inl h1)]

/-- Witness for C3 at n = 7, m = 3. -/
theorem fib_with_mod_agrees_bigfib_witness :
    fib_with_mod 7 3 = bigfib_with_mod 7 3 :=
  fib_with_mod_agrees_bigfib 7 3 (by decide) (by decide) (by decide)

/-- C4 (code-bug evidence): neither entry point validates the modulus.
With modulo = 0 the base cases n = 0 and n = 1 return a value (0 resp. 1)
instead of failing with an invalid-modulus error; for n ≥ 2 the source
panics on `% 0` (division by zero) rather than raising a domain error. -/
theorem modulo_zero_returns_value :
    fib_with_mod 0 0 = some 0 ∧ fib_with_mod 1 0 = some 1 ∧
    bigfib_with_mod 0 0 = some 0 ∧ bigfib_with_mod 1 0 = some 1 := by decide

/-- C5 (counterexample): at m = 1 the transformation matrix `[[0,1],[1,1]]`
has entries equal to 1 ∉ [0, 1), and the exponentiation at exponent 1
returns it unreduced, so not every intermediate matrix entry is in
`[0, m)` for every m ≥ 1. -/
theorem intermediate_matrix_mod_one_cex :
    matrix_power_with_mod fibT 1 1 = some fibT ∧
    bigfib_matrix_power fibT 1 1 = some fibT ∧
    fibT.b = 1 ∧ ¬ (fibT.b < 1) := by decide

/-- C5 (amended): for every m ≥ 2 the invariant holds: the constructed
transformation matrix, every matrix produced by either multiply, every
result of either matrix exponentiation (on matrices with entries in
`[0, m)`), and every value returned by either entry point lie in `[0, m)`.
(For m = 1 the constructed matrix itself has entries ≥ m.) -/
theorem intermediate_values_in_range (m : Nat) (hm2 : 2 ≤ m) :
    entriesLt fibT m ∧
    (∀ x y, entriesLt (bigfib_multiply x y m) m) ∧
    (m < U64 → ∀ x y, entriesLt (multiply_with_mod x y m) m) ∧
    (∀ t p r, 1 ≤ p → entriesLt t m → bigfib_matrix_power t p m = some r →
      entriesLt r m) ∧
    (m < U64 → ∀ t p r, 1 ≤ p → entriesLt t m → matrix_power_with_mod t p m = some r →
      entriesLt r m) ∧
    (∀ n r, bigfib_with_mod n m = some r → r < m) ∧
    (m < U64 → ∀ n r, fib_with_mod n m = some r → r < m) := by
  have hm : 1 ≤ m := by omega
  refine ⟨?_, ?_, ?_, ?_, ?_, ?_, ?_⟩
  · refine ⟨?_, ?_, ?_, ?_⟩ <;> simp [fibT] <;> omega
  · intro x y
    rw [bigfib_multiply_eq]
    exact entriesLt_matModM _ _ hm
  · intro hU x y
    rw [multiply_with_mod_eq x y m hm hU, bigfib_multiply_eq]
    exact entriesLt_matModM _ _ hm
  · intro t p r hp ht hsome
    rw [bigfib_matrix_power_eq t p m hp] at hsome
    obtain rfl := Option.some.inj hsome
    rw [bigPowerVal]
    by_cases h1 : p = 1
    · rw [if_pos h1]
      exact ht
    · rw [if_neg h1]
      exact entriesLt_matModM _ _ hm
  · intro hU t p r hp ht hsome
    rw [matrix_power_with_mod_eq t p m hp hm hU] at hsome
    obtain rfl := Option.some.inj hsome
    rw [bigPowerVal]
    by_cases h1 : p = 1
    · rw [if_pos h1]
      exact ht
    · rw [if_neg h1]
      exact entriesLt_matModM _ _ hm
  · intro n r h
    rw [bigfib_with_mod] at h
    by_cases hbase : n = 0 ∨ n = 1
    · rw [if_pos hbase] at h
      have hr := Option.some.inj h
      omega
    · rw [if_neg hbase] at h
      cases hp : bigfib_matrix_power fibT n m with
      | none =>
        rw [hp] at h
        exact absurd h (by simp)
      | some v =>
        rw [hp] at h
        simp only [Option.map_some'] at h
        obtain rfl := Option.some.inj h
        exact Nat.mod_lt _ hm
  · intro hU n r h
    rw [fib_with_mod] at h
    by_cases h0 : n = 0
    · rw [if_pos h0] at h
      have hr := Option.some.inj h
      omega
    · rw [if_neg h0] at h
      by_cases h1 : n = 1
      · rw [if_pos h1] at h
        have hr := Option.some.inj h
        omega
      · rw [if_neg h1] at h
        cases hp : matrix_power_with_mod fibT n m with
        | none =>
          rw [hp] at h
          exact absurd h (by simp)
        | some v =>
          rw [hp] at h
          simp only [Option.map_some'] at h
          obtain rfl := Option.some.inj h
          exact Nat.mod_lt _ hm

/-- Witness for C5's amended theorem at m = 5. -/
theorem intermediate_values_in_range_witness :
    entriesLt fibT 5 ∧
    (∀ x y, entriesLt (bigfib_multiply x y 5) 5) ∧
    (5 < U64 → ∀ x y, entriesLt (multiply_with_mod x y 5) 5) ∧
    (∀ t p r, 1 ≤ p → entriesLt t 5 → bigfib_matrix_power t p 5 = some r →
      entriesLt r 5) ∧
    (5 < U64 → ∀ t p r, 1 ≤ p → entriesLt t 5 → matrix_power_with_mod t p 5 = some r →
      entriesLt r 5) ∧
    (∀ n r, bigfib_with_mod n 5 = some r → r < 5) ∧
    (5 < U64 → ∀ n r, fib_with_mod n 5 = some r → r < 5) :=
  intermediate_values_in_range 5 (by decide)

/-- C6: for every matrix `t` with entries in `[0, m)`, p ≥ 1 and m ≥ 1, the
matrix exponentiation returns `t^p` reduced entrywise modulo m (entries in
`[0, m)`), with exactly the claimed branch structure: exponent 1 returns
`t` unchanged; an odd exponent peels one factor and recurses on `p - 1`;
an even exponent squares the half power; parity is the only branch
condition.  The bounded-width pipeline computes the same function as the
arbitrary-precision one for m < 2^64. -/
theorem matrix_power_spec (t : Mat2) (p m : Nat) (hm : 1 ≤ m) (hp : 1 ≤ p)
    (ht : entriesLt t m) :
    bigfib_matrix_power t 1 m = some t ∧
    (p % 2 = 1 → p ≠ 1 →
      bigfib_matrix_power t p m =
        Option.map (fun r => bigfib_multiply t r m) (bigfib_matrix_power t (p - 1) m)) ∧
    (p % 2 = 0 →
      bigfib_matrix_power t p m =
        Option.map (fun x => bigfib_multiply x x m) (bigfib_matrix_power t (p / 2) m)) ∧
    bigfib_matrix_power t p m = some (matModM (matPow t p) m) ∧
    entriesLt (matModM (matPow t p) m) m ∧
    (m < U64 → matrix_power_with_mod t p m = bigfib_matrix_power t p m) := by
  refine ⟨rfl, ?_, ?_, ?_, entriesLt_matModM _ _ hm, ?_⟩
  · intro hodd h1
    rw [bigfib_matrix_power_eq t p m hp, bigfib_matrix_power_eq t (p - 1) m (by omega)]
    simp only [Option.map_some']
    rw [bigPowerVal_odd t p m hodd h1]
  · intro heven
    rw [bigfib_matrix_power_eq t p m hp, bigfib_matrix_power_eq t (p / 2) m (by omega)]
    simp only [Option.map_some']
    rw [bigPowerVal_even t p m heven hp]
  · rw [bigfib_matrix_power_eq t p m hp]
    congr 1
    rw [bigPowerVal]
    by_cases h1 : p = 1
    · rw [if_pos h1, h1, matPow_one, matModM_of_entriesLt t m ht]
    · rw [if_neg h1]
  · intro hU
    rw [matrix_power_with_mod, bigfib_matrix_power,
      matrix_power_with_mod_fuel_eq_big p t p m hm hU]

/-- Witness for C6 at t = [[0,1],[1,1]], p = 2, m = 5. -/
theorem matrix_power_spec_witness :
    bigfib_matrix_power fibT 1 5 = some fibT ∧
    (2 % 2 = 1 → 2 ≠ 1 →
      bigfib_matrix_power fibT 2 5 =
        Option.map (fun r => bigfib_multiply fibT r 5) (bigfib_matrix_power fibT (2 - 1) 5)) ∧
    (2 % 2 = 0 →
      bigfib_matrix_power fibT 2 5 =
        Option.map (fun x => bigfib_multiply x x 5) (bigfib_matrix_power fibT (2 / 2) 5)) ∧
    bigfib_matrix_power fibT 2 5 = some (matModM (matPow fibT 2) 5) ∧
    entriesLt (matModM (matPow fibT 2) 5) 5 ∧
    (5 < U64 → matrix_power_with_mod fibT 2 5 = bigfib_matrix_power fibT 2 5) :=
  matrix_power_spec fibT 2 5 (by decide) (by decide) (by decide)

/-- C7: for all n ≥ 2 and 1 ≤ m < 2^64 the bounded-width entry point
satisfies the Fibonacci recurrence modulo m:
`fib_with_mod n m = (fib_with_mod (n-1) m + fib_with_mod (n-2) m) mod m`. -/
theorem fib_with_mod_recurrence (n m : Nat) (hn : 2 ≤ n) (hm : 1 ≤ m) (hU : m < U64) :
    ∃ r r1 r2, fib_with_mod n m = some r ∧ fib_with_mod (n - 1) m = some r1 ∧
      fib_with_mod (n - 2) m = some r2 ∧ r = (r1 + r2) % m := by
  obtain ⟨r1, h1, e1⟩ := fib_with_mod_residue (n - 1) m hm hU
  obtain ⟨r2, h2, e2⟩ := fib_with_mod_residue (n - 2) m hm hU
  refine ⟨Nat.fib n % m, r1, r2,
    fib_with_mod_correct n m hm hU (Or.inl (by omega)), h1, h2, ?_⟩
  have hfib : Nat.fib (n - 2 + 2) = Nat.fib (n - 2) + Nat.fib (n - 2 + 1) :=
    Nat.fib_add_two
  have ei : n - 2 + 2 = n := by omega
  have ei' : n - 2 + 1 = n - 1 := by omega
  rw [ei, ei'] at hfib
  have hfib2 : Nat.fib n = Nat.fib (n - 1) + Nat.fib (n - 2) := by omega
  rw [hfib2, Nat.add_mod, ← e1, ← e2, ← Nat.add_mod]

/-- Witness for C7 at n = 5, m = 10. -/
theorem fib_with_mod_recurrence_witness :
    ∃ r r1 r2, fib_with_mod 5 10 = some r ∧ fib_with_mod (5 - 1) 10 = some r1 ∧
      fib_with_mod (5 - 2) 10 = some r2 ∧ r = (r1 + r2) % 10 :=
  fib_with_mod_recurrence 5 10 (by decide) (by decide) (by decide)

/-- C8: for every m, `fib_with_mod` returns 0 at n = 0 and 1 at n = 1
directly from the base-case short-circuits, and `bigfib_with_mod` returns
n itself at n = 0 and n = 1; no matrix exponentiation is involved (the
definitions return before constructing the matrix). -/
theorem fib_with_mod_base_cases (m : Nat) :
    fib_with_mod 0 m = some 0 ∧ fib_with_mod 1 m = some 1 ∧
    bigfib_with_mod 0 m = some 0 ∧ bigfib_with_mod 1 m = some 1 :=
  ⟨rfl, rfl, rfl, rfl⟩

/-- C9: for every exponent p ≥ 1 (the precondition the entry points
guarantee) the recursive exponentiation of both pipelines terminates: any
fuel ≥ p yields the same `some` result as the canonical run, i.e. the
recursion, which strictly decreases the exponent (p → p−1 when odd,
p → p/2 when even), defines a total function on p ≥ 1. -/
theorem matrix_power_termination (t : Mat2) (p m fuel : Nat) (hp : 1 ≤ p)
    (hf : p ≤ fuel) (hm : 1 ≤ m) :
    bigfib_matrix_power_fuel fuel t p m = bigfib_matrix_power t p m ∧
    (∃ r, bigfib_matrix_power t p m = some r) ∧
    matrix_power_with_mod_fuel fuel t p m = matrix_power_with_mod t p m ∧
    (∃ r, matrix_power_with_mod t p m = some r) := by
  have hbig := bigfib_matrix_power_fuel_eq fuel t p m hp hf
  have hbig0 := bigfib_matrix_power_eq t p m hp
  refine ⟨hbig.trans hbig0.symm, ⟨_, hbig0⟩, ?_, ?_⟩
  · rw [matrix_power_with_mod]
    exact matrix_power_with_mod_fuel_irrel fuel p t p m hp hf le_rfl
  · rw [matrix_power_with_mod]
    exact matrix_power_with_mod_fuel_some p t p m hp le_rfl

/-- Witness for C9 at t = [[0,1],[1,1]], p = 3, m = 10, fuel = 7. -/
theorem matrix_power_termination_witness :
    bigfib_matrix_power_fuel 7 fibT 3 10 = bigfib_matrix_power fibT 3 10 ∧
    (∃ r, bigfib_matrix_power fibT 3 10 = some r) ∧
    matrix_power_with_mod_fuel 7 fibT 3 10 = matrix_power_with_mod fibT 3 10 ∧
    (∃ r, matrix_power_with_mod fibT 3 10 = some r) :=
  matrix_power_termination fibT 3 10 7 (by decide) (by decide) (by decide)

/-- C10: for every value v < 2^64, the narrowing helper
`small_big_int_to_u64` reconstructs v exactly from its base-10 big-endian
digits; narrowing a fully reduced residue never changes its value. -/
theorem small_big_int_to_u64_exact (v : Nat) (hv : v < U64) :
    small_big_int_to_u64 v = v :=
  small_big_int_to_u64_eq v hv

/-- Witness for C10 at v = 12345. -/
theorem small_big_int_to_u64_exact_witness :
    small_big_int_to_u64 12345 = 12345 :=
  small_big_int_to_u64_exact 12345 (by decide)

/-! ### Concrete scenarios from the repository's tests -/

set_option maxRecDepth 100000

example : fib_with_mod 100 1000000000 = some 261915075 := by decide

example : fib_with_mod 1000000000000000 1000000 = some 546875 := by decide

example : fib_with_mod 1955995342096516 18446744073709551615 = some 2886946313980141317 := by
  decide

example :
    bigfib_with_mod
      (100 + 100 * 2 ^ 32 + 100 * 2 ^ 64 + 100 * 2 ^ 96 + 15129 * 2 ^ 128 + 12319 * 2 ^ 160)
      (14 + 12 * 2 ^ 32 + 1923876123 * 2 ^ 64 + 12 * 2 ^ 96)
      = some (2743227343 + 920986447 * 2 ^ 32 + 1158660944 * 2 ^ 64 + 5 * 2 ^ 96) := by
  decide
